import Mathlib

/-!
Verification development for the sales-analysis pipeline
(`sales_analyzer`: `analyzer.py`, `data_cleaner.py`, `data_loader.py`,
`reporter.py`, `visualizer.py`).

The pandas DataFrame is embedded as a `Table`: a header of named, typed
columns plus a list of rows, each row a list of optional cells (a `none`
cell is pandas' missing marker NaN/NaT/None).  Numeric values are embedded
as exact rationals; the IEEE special values the code's control flow can
produce (NaN and signed infinities, e.g. from `pct_change` when the
previous value is zero, or `mean` of an empty series) are represented
explicitly by the `PFloat` type.  Timestamps are embedded as a month index
plus a within-month ordinal, which is all `dt.to_period('M')`, `min`,
`max` and chronological ordering observe.

Each operation of `SalesAnalyzer` is translated function-by-function:
`clean_data`, `calculate_basic_stats`, `analyze_sales_by_category`,
`analyze_monthly_trends`, `generate_report`.  Python exceptions
(`KeyError` on a missing column, `KeyError` from `mode()[0]` on an empty
mode, `ValueError` from `NaT.strftime`) are embedded as `Except.error`.
-/

namespace SalesAnalysis

/-- Column dtypes as pandas sees them: `select_dtypes(include=[np.number])`
selects `numeric`, `select_dtypes(include=['object'])` selects `text`;
datetime64 and period columns are selected by neither. -/
inductive Dtype where
  | numeric
  | text
  | datetime
  | period
deriving DecidableEq, Repr

/-- Cell values: exact rationals for numbers, strings for object cells,
`ts m d` for a timestamp in month-index `m` with within-month ordinal `d`,
and `per m` for a `to_period('M')` bucket. -/
inductive Value where
  | num (q : ℚ)
  | str (s : String)
  | ts (m : Nat) (d : Nat)
  | per (m : Nat)
deriving DecidableEq, Repr

/-- A cell; `none` is the missing marker (NaN/NaT). -/
abbrev Cell := Option Value

/-- A row of a DataFrame, one cell per column. -/
abbrev Row := List Cell

/-- The DataFrame embedding: named, typed columns and a list of rows. -/
structure Table where
  header : List (String × Dtype)
  rows : List Row
deriving DecidableEq, Repr

/-- Well-formedness: every row has exactly one cell per column and column
names are distinct (as after `read_csv`, which mangles duplicates). -/
def Table.WF (t : Table) : Prop :=
  (∀ r ∈ t.rows, r.length = t.header.length) ∧ (t.header.map Prod.fst).Nodup

/-- The scan underlying `DataFrame.drop_duplicates()` with the default
`keep='first'`: a row is kept iff it is not equal to any earlier row. -/
def dropDupAux {α : Type} [DecidableEq α] : List α → List α → List α
  | _, [] => []
  | seen, x :: xs =>
    if x ∈ seen then dropDupAux seen xs else x :: dropDupAux (x :: seen) xs

/-- Embedding of `drop_duplicates()` (exact full-row equality; pandas
treats NaN cells in the same position as equal, as does `Cell` equality). -/
def dropDuplicates {α : Type} [DecidableEq α] (l : List α) : List α :=
  dropDupAux [] l

/-- Cell of row `r` in column `j` (`none` when out of range). -/
def cellAt (r : Row) (j : Nat) : Cell := r.getD j none

/-- Non-missing values of column `j`, in row order (pandas `dropna`). -/
def presentCells (rows : List Row) (j : Nat) : List Value :=
  rows.filterMap (fun r => cellAt r j)

/-- Numeric payload of a value, if any. -/
def toRat : Value → Option ℚ
  | .num q => some q
  | _ => none

/-- Non-missing numeric values of column `j`, in row order. -/
def presentRats (rows : List Row) (j : Nat) : List ℚ :=
  rows.filterMap (fun r => (cellAt r j).bind toRat)

/-- Number of missing cells in column `j` (`isnull().sum()` for one column). -/
def missingCount (rows : List Row) (j : Nat) : Nat :=
  (rows.filter (fun r => (cellAt r j).isNone)).length

/-- Total number of missing cells (`df.isnull().sum().sum()`). -/
def totalMissing (ncols : Nat) (rows : List Row) : Nat :=
  ((List.range ncols).map (fun j => missingCount rows j)).sum

/-- Index of a named column, `none` when absent (`KeyError` site). -/
def colIdx (hdr : List (String × Dtype)) (name : String) : Option Nat :=
  hdr.findIdx? (fun c => c.1 == name)

/-- IEEE float results the code can produce where the embedding must keep
NaN and the infinities apart from finite values. -/
inductive PFloat where
  | nan
  | inf
  | ninf
  | val (q : ℚ)
deriving DecidableEq, Repr

/-- Insert into an ascending list of rationals. -/
def insertRat (x : ℚ) : List ℚ → List ℚ
  | [] => [x]
  | y :: ys => if x ≤ y then x :: y :: ys else y :: insertRat x ys

/-- Ascending sort of rationals (pandas sorts before taking the median). -/
def sortRats (l : List ℚ) : List ℚ := l.foldr insertRat []

/-- Embedding of `Series.median()` with `skipna`: applied to the present
values only; `none` when there is no present value (pandas returns NaN). -/
def median (qs : List ℚ) : Option ℚ :=
  let s := sortRats qs
  let n := s.length
  if n = 0 then none
  else if n % 2 = 1 then some (s.getD (n / 2) 0)
  else some ((s.getD (n / 2 - 1) 0 + s.getD (n / 2) 0) / 2)

/-- Rank used to order values of distinct shapes (uniform columns never
compare across ranks). -/
def Value.rank : Value → Nat
  | .num _ => 0
  | .str _ => 1
  | .ts _ _ => 2
  | .per _ => 3

/-- Total comparison on values: numeric order on numbers, lexicographic
order on strings, chronological order on timestamps and periods. -/
def Value.le (a b : Value) : Bool :=
  match a, b with
  | .num p, .num q => decide (p ≤ q)
  | .str s, .str t => decide (s ≤ t)
  | .ts m d, .ts m2 d2 => decide (m < m2 ∨ (m = m2 ∧ d ≤ d2))
  | .per m, .per m2 => decide (m ≤ m2)
  | a, b => decide (a.rank ≤ b.rank)

/-- Embedding of `Series.mode()[0]`: the most frequent present value,
smallest first (pandas returns the modes sorted ascending, so index 0 is
the least); `none` on an empty series, where `[0]` raises `KeyError`. -/
def seriesMode (vals : List Value) : Option Value :=
  (dropDuplicates vals).foldl
    (fun acc v =>
      match acc with
      | none => some v
      | some b =>
        if vals.count b < vals.count v ∨
            (vals.count v = vals.count b ∧ Value.le v b ∧ v ≠ b) then some v
        else some b)
    none

/-- Embedding of `Series.fillna(v)` on column `j`: write `v` into exactly
the missing cells of that column. -/
def fillAt (rows : List Row) (j : Nat) (v : Value) : List Row :=
  rows.map (fun r => if (cellAt r j).isNone then r.set j (some v) else r)

/-- The numeric imputation loop of `clean_data`: for each numeric column
with a missing value, fill with the column's median; when every value is
missing the median is NaN and `fillna(NaN)` changes nothing. -/
def imputeNumericCols : List (Nat × (String × Dtype)) → List Row → List Row
  | [], rows => rows
  | (j, _, dt) :: rest, rows =>
    imputeNumericCols rest
      (if dt = .numeric ∧ 0 < missingCount rows j then
        match median (presentRats rows j) with
        | some m => fillAt rows j (.num m)
        | none => rows
      else rows)

/-- The categorical imputation loop of `clean_data`: for each text column
with a missing value, fill with `mode()[0]`; on a column with no present
value the mode is empty and `mode()[0]` raises `KeyError`. -/
def imputeTextCols : List (Nat × (String × Dtype)) → List Row → Except String (List Row)
  | [], rows => .ok rows
  | (j, _, dt) :: rest, rows =>
    if dt = .text ∧ 0 < missingCount rows j then
      match seriesMode (presentCells rows j) with
      | some m => imputeTextCols rest (fillAt rows j m)
      | none => .error "KeyError: 0 (mode of a column with no present value is empty)"
    else imputeTextCols rest rows

/-- Embedding of `SalesAnalyzer.clean_data` (and of the equivalent
standalone `data_cleaner.clean_data`): drop duplicate rows keeping the
first occurrence, report the number removed, then impute missing values
per column (median for numeric, mode for text) when any cell is missing. -/
def clean_data (t : Table) : Except String (Table × Nat) :=
  let deduped := dropDuplicates t.rows
  let removed := t.rows.length - deduped.length
  if 0 < totalMissing t.header.length deduped then
    match imputeTextCols t.header.enum (imputeNumericCols t.header.enum deduped) with
    | .ok rows2 => .ok ({ t with rows := rows2 }, removed)
    | .error e => .error e
  else .ok ({ t with rows := deduped }, removed)

/-- A result row of `calculate_basic_stats`.  The `strftime('%Y-%m-%d')`
formatting of the date range is kept as the raw min/max timestamps (the
rendering of a non-NaT timestamp to text carries no information the
claims inspect); `NaT.strftime` raising is modelled where it occurs. -/
structure Stats where
  total_sales : ℚ
  average_order : PFloat
  total_orders : Nat
  unique_customers : Nat
  unique_products : Nat
  date_range : Option (Value × Value)
deriving DecidableEq, Repr

/-- Embedding of `Series.nunique()`: distinct non-missing values. -/
def nunique (rows : List Row) (j : Nat) : Nat :=
  (dropDuplicates (presentCells rows j)).length

/-- Embedding of `Series.mean()` with `skipna`: NaN on an empty series. -/
def seriesMean (qs : List ℚ) : PFloat :=
  if qs.length = 0 then .nan else .val (qs.sum / qs.length)

/-- Embedding of `Series.min()` with `skipna`: `none` (NaT) when no value
is present. -/
def seriesMin (vals : List Value) : Option Value :=
  vals.foldl
    (fun acc v =>
      match acc with
      | none => some v
      | some b => if Value.le v b then some v else some b)
    none

/-- Embedding of `Series.max()` with `skipna`. -/
def seriesMax (vals : List Value) : Option Value :=
  vals.foldl
    (fun acc v =>
      match acc with
      | none => some v
      | some b => if Value.le b v then some v else some b)
    none

/-- Embedding of `SalesAnalyzer.calculate_basic_stats`.  The stats dict is
built eagerly, so a missing `total_amount`, `customer_id` or `product_id`
column raises `KeyError` in that order; when `order_date` exists the date
range is formatted with `strftime`, which raises `ValueError` on the NaT
produced by `min`/`max` of a series with no present timestamp. -/
def calculate_basic_stats (t : Table) : Except String Stats :=
  match colIdx t.header "total_amount" with
  | none => .error "KeyError: total_amount"
  | some ja =>
    match colIdx t.header "customer_id" with
    | none => .error "KeyError: customer_id"
    | some jc =>
      match colIdx t.header "product_id" with
      | none => .error "KeyError: product_id"
      | some jp =>
        let amounts := presentRats t.rows ja
        let base : Stats :=
          { total_sales := amounts.sum
            average_order := seriesMean amounts
            total_orders := t.rows.length
            unique_customers := nunique t.rows jc
            unique_products := nunique t.rows jp
            date_range := none }
        match colIdx t.header "order_date" with
        | none => .ok base
        | some jd =>
          match seriesMin (presentCells t.rows jd), seriesMax (presentCells t.rows jd) with
          | some mn, some mx => .ok { base with date_range := some (mn, mx) }
          | _, _ => .error "ValueError: NaTType does not support strftime"

/-- A row of the category rollup produced by `analyze_sales_by_category`. -/
structure CatRow where
  category : Value
  total_amount : ℚ
  quantity : ℚ
  order_count : Nat
deriving DecidableEq, Repr

/-- Insert a value into the ascending duplicate-free list of group keys
(`groupby` with the default `sort=True` produces its groups keyed by the
distinct values in ascending order, dropping missing keys). -/
def insertKey (x : Value) : List Value → List Value
  | [] => [x]
  | y :: ys =>
    if x = y then y :: ys
    else if Value.le x y then x :: y :: ys
    else y :: insertKey x ys

/-- The ascending duplicate-free list of group keys of a `groupby`. -/
def sortedKeys (vals : List Value) : List Value := vals.foldr insertKey []

/-- Embedding of the `'count'` aggregation: non-missing cells in column `j`. -/
def countPresent (rows : List Row) (j : Nat) : Nat :=
  (presentCells rows j).length

/-- Insert into a descending-by-`total_amount` list, before the first
element it is greater than or equal to, so that elements with equal totals
keep their input order (the stable behaviour `sort_values` exhibits here). -/
def insertDesc (x : CatRow) : List CatRow → List CatRow
  | [] => [x]
  | y :: ys =>
    if y.total_amount ≤ x.total_amount then x :: y :: ys else y :: insertDesc x ys

/-- Embedding of `sort_values('total_amount', ascending=False)`. -/
def sortByTotalDesc (l : List CatRow) : List CatRow := l.foldr insertDesc []

/-- Embedding of `SalesAnalyzer.analyze_sales_by_category`: empty result
when `category` is absent; groups by `category` (keys ascending, missing
keys dropped), aggregates sum of `total_amount`, sum of `quantity` and
non-null count of `order_id` (raising `KeyError` if an aggregation column
is absent), then sorts descending by summed `total_amount`. -/
def analyze_sales_by_category (t : Table) : Except String (List CatRow) :=
  match colIdx t.header "category" with
  | none => .ok []
  | some jcat =>
    match colIdx t.header "total_amount", colIdx t.header "quantity",
        colIdx t.header "order_id" with
    | some ja, some jq, some jo =>
      let keys := sortedKeys (presentCells t.rows jcat)
      let grouped := keys.map (fun k =>
        let g := t.rows.filter (fun r => decide (cellAt r jcat = some k))
        { category := k
          total_amount := (presentRats g ja).sum
          quantity := (presentRats g jq).sum
          order_count := countPresent g jo : CatRow })
      .ok (sortByTotalDesc grouped)
    | _, _, _ => .error "KeyError: aggregation column"

/-- A row of the monthly trend produced by `analyze_monthly_trends`. -/
structure MonthRow where
  month : Nat
  total_amount : ℚ
  quantity : ℚ
  unique_customers : Nat
  order_count : Nat
  growth_rate : PFloat
deriving DecidableEq, Repr

/-- Embedding of `dt.to_period('M')` on one cell: the month bucket of a
timestamp, NaT for a missing or non-timestamp cell. -/
def toPeriodM (c : Cell) : Cell :=
  match c with
  | some (.ts m _) => some (.per m)
  | _ => none

/-- Embedding of `df[name] = vals`: overwrite the column if the name
exists, otherwise append it as the last column. -/
def setColumn (t : Table) (name : String) (dt : Dtype) (vals : List Cell) : Table :=
  match colIdx t.header name with
  | some j =>
    { header := t.header.set j (name, dt)
      rows := (t.rows.zip vals).map (fun p => p.1.set j p.2) }
  | none =>
    { header := t.header ++ [(name, dt)]
      rows := (t.rows.zip vals).map (fun p => p.1 ++ [p.2]) }

/-- One step of `pct_change() * 100` in float semantics: a finite value
`(cur - prev) / prev * 100` when `prev` is non-zero; division by a zero
`prev` yields a signed infinity for non-zero `cur` and NaN for `cur = 0`. -/
def growthFrom (prev cur : ℚ) : PFloat :=
  if prev = 0 then
    if 0 < cur then .inf else if cur < 0 then .ninf else .nan
  else .val ((cur - prev) / prev * 100)

/-- Tail of the growth column: each entry compares a total with its
predecessor. -/
def growthTail (prev : ℚ) : List ℚ → List PFloat
  | [] => []
  | c :: cs => growthFrom prev c :: growthTail c cs

/-- Embedding of `pct_change() * 100` over the ordered month totals: the
first entry is NaN (no prior period). -/
def growthList : List ℚ → List PFloat
  | [] => []
  | x :: xs => .nan :: growthTail x xs

/-- Month index of a period value. -/
def monthOf : Value → Nat
  | .per m => m
  | _ => 0

/-- Attach the growth column to the per-month aggregates. -/
def zipGrowth : List (Value × ℚ × ℚ × Nat × Nat) → List PFloat → List MonthRow
  | [], _ => []
  | _, [] => []
  | (k, ta, qty, uc, oc) :: bs, g :: gs =>
    { month := monthOf k, total_amount := ta, quantity := qty,
      unique_customers := uc, order_count := oc, growth_rate := g } :: zipGrowth bs gs

/-- Embedding of `SalesAnalyzer.analyze_monthly_trends`.  When
`order_date` is absent it returns an empty result and the table is left
untouched; otherwise it assigns the scratch column
`self.df['month_year'] = self.df['order_date'].dt.to_period('M')` — a
mutation of the analyzer's table that this function returns alongside the
trend — then groups by the bucket (keys chronologically ascending),
aggregates, and appends the `pct_change() * 100` growth column. -/
def analyze_monthly_trends (t : Table) : Except String (Table × List MonthRow) :=
  match colIdx t.header "order_date" with
  | none => .ok (t, [])
  | some jd =>
    let t2 := setColumn t "month_year" .period
      (t.rows.map (fun r => toPeriodM (cellAt r jd)))
    match colIdx t2.header "month_year", colIdx t2.header "total_amount",
        colIdx t2.header "quantity", colIdx t2.header "customer_id",
        colIdx t2.header "order_id" with
    | some jm, some ja, some jq, some jc, some jo =>
      let keys := sortedKeys (presentCells t2.rows jm)
      let base := keys.map (fun k =>
        let g := t2.rows.filter (fun r => decide (cellAt r jm = some k))
        (k, (presentRats g ja).sum, (presentRats g jq).sum,
          nunique g jc, countPresent g jo))
      .ok (t2, zipGrowth base (growthList (base.map (fun b => b.2.1))))
    | _, _, _, _, _ => .error "KeyError: aggregation column"

/-- The content `generate_report` writes: one sheet per computed view plus
the raw data sample. -/
structure Report where
  summary : Stats
  monthly : List MonthRow
  categoryRollup : List CatRow
  sample : Table
deriving DecidableEq, Repr

/-- Embedding of `df.head(n)`. -/
def headN (t : Table) (n : Nat) : Table := { t with rows := t.rows.take n }

/-- Embedding of `SalesAnalyzer.generate_report`: computes the summary
stats, then the monthly trend (whose scratch-column assignment mutates the
analyzer's table before the later sheets are produced), then the category
rollup, and finally takes `self.df.head(1000)` — the now-current table —
as the Sample Data sheet.  Any exception is caught by the surrounding
`try`/`except` block, modelled as the error case. -/
def generate_report (t : Table) : Except String Report :=
  match calculate_basic_stats t with
  | .error e => .error e
  | .ok st =>
    match analyze_monthly_trends t with
    | .error e => .error e
    | .ok (t2, monthly) =>
      match analyze_sales_by_category t2 with
      | .error e => .error e
      | .ok cats =>
        .ok { summary := st, monthly := monthly, categoryRollup := cats,
              sample := headN t2 1000 }

/-! ## Concrete tables exercising the divergences found in the code -/

/-- A one-row table with every column `calculate_basic_stats`,
`analyze_monthly_trends` and `generate_report` touch. -/
def tblC1 : Table :=
  { header := [("order_date", .datetime), ("total_amount", .numeric),
      ("quantity", .numeric), ("customer_id", .numeric),
      ("product_id", .numeric), ("order_id", .numeric)],
    rows := [[some (.ts 0 1), some (.num 10), some (.num 1), some (.num 1),
      some (.num 1), some (.num 1)]] }

/-- Two months of orders whose first month sums to zero. -/
def tblC2 : Table :=
  { header := [("order_date", .datetime), ("total_amount", .numeric),
      ("quantity", .numeric), ("customer_id", .numeric), ("order_id", .numeric)],
    rows := [[some (.ts 0 1), some (.num 0), some (.num 1), some (.num 1), some (.num 1)],
             [some (.ts 1 1), some (.num 5), some (.num 1), some (.num 1), some (.num 2)]] }

/-- A zero-row table with the identifier and amount columns. -/
def tblC3 : Table :=
  { header := [("order_id", .numeric), ("customer_id", .numeric),
      ("product_id", .numeric), ("total_amount", .numeric)],
    rows := [] }

/-- A zero-row table that also has an `order_date` column. -/
def tblC3b : Table :=
  { header := [("order_id", .numeric), ("customer_id", .numeric),
      ("product_id", .numeric), ("total_amount", .numeric),
      ("order_date", .datetime)],
    rows := [] }

/-- A one-row table whose `customer_id` column is absent. -/
def tblC4 : Table :=
  { header := [("total_amount", .numeric), ("product_id", .numeric)],
    rows := [[some (.num 1), some (.num 1)]] }

/-- A one-row table whose text column `category` is entirely missing. -/
def tblC6 : Table :=
  { header := [("category", .text), ("total_amount", .numeric)],
    rows := [[none, some (.num 1)]] }

/-- A one-row table whose numeric column is entirely missing. -/
def tblC6b : Table :=
  { header := [("x", .numeric)],
    rows := [[none]] }

/-! ## Claims -/

/-- C1.  The claim says `analyze_monthly_trends` leaves the Table
unchanged and the Sample Data sheet written by `generate_report` holds
only the original columns.  The code instead persists the scratch
bucketing column: `self.df['month_year'] = ...` mutates the analyzer's
table, and the Sample Data sheet (`self.df.head(1000)`) written after the
trend computation carries the extra `month_year` column beyond the
original ones. -/
theorem C1_scratch_column_persisted_into_sample :
    ((analyze_monthly_trends tblC1).map (fun p => p.1.header.map Prod.fst) =
      .ok (tblC1.header.map Prod.fst ++ ["month_year"]))
    ∧ ((generate_report tblC1).map (fun r => r.sample.header.map Prod.fst) =
      .ok (tblC1.header.map Prod.fst ++ ["month_year"])) := by
  constructor <;> rfl

/-- C2.  The claim says the growth rate is null when the previous month's
total is zero.  On months totalling 0 then 5 the code's
`pct_change() * 100` divides by the zero previous total and yields
positive infinity, not null, in the second bucket (the first bucket's NaN
and the chronological order are as claimed). -/
theorem C2_growth_rate_infinite_on_zero_previous_total :
    (analyze_monthly_trends tblC2).map
        (fun p => p.2.map (fun r => (r.month, r.total_amount, r.growth_rate))) =
      .ok [(0, 0, PFloat.nan), (1, 5, PFloat.inf)] := by
  simp [analyze_monthly_trends, tblC2, colIdx, setColumn, cellAt, toPeriodM,
    sortedKeys, insertKey, presentCells, presentRats, toRat, Value.le, nunique,
    countPresent, dropDuplicates, dropDupAux, growthList, growthTail, growthFrom,
    zipGrowth, monthOf, List.findIdx?, Except.map]

/-- C3.  The claim says a zero-row Table gives `total_orders = 0`,
`total_sales = 0`, a null (not NaN, no exception) `average_order`, and
empty rollup and trend.  The code does give zero totals and empty derived
views, but `mean()` of the empty amount column is NaN, and when an
`order_date` column is present the `strftime` call on the NaT produced by
`min()`/`max()` of the empty column raises, so the stats call fails
outright. -/
theorem C3_empty_table_mean_is_nan_and_strftime_raises :
    calculate_basic_stats tblC3 =
      .ok { total_sales := 0, average_order := PFloat.nan, total_orders := 0,
            unique_customers := 0, unique_products := 0, date_range := none }
    ∧ analyze_sales_by_category tblC3 = .ok []
    ∧ analyze_monthly_trends tblC3 = .ok (tblC3, [])
    ∧ calculate_basic_stats tblC3b =
      .error "ValueError: NaTType does not support strftime" := by
  refine ⟨rfl, rfl, rfl, rfl⟩

/-- C4.  The claim says `basicStats` succeeds without a `customer_id`
column, omitting the field, and that only a missing `total_amount` is
fatal.  The code builds the stats dict eagerly, so
`self.df['customer_id'].nunique()` raises `KeyError` and the whole call
fails. -/
theorem C4_missing_customer_id_column_raises :
    calculate_basic_stats tblC4 = .error "KeyError: customer_id" := by
  rfl

/-- C6.  The claim says an entirely-missing column (numeric or text) is
imputed as a no-op with a warning, continuing with the rest.  That is what
happens for a numeric column (the median of no present values is NaN and
`fillna(NaN)` changes nothing), but for a text column the code indexes the
empty `mode()` result with `[0]`, which raises `KeyError` and aborts the
cleaning call. -/
theorem C6_all_missing_text_column_raises :
    clean_data tblC6 =
      .error "KeyError: 0 (mode of a column with no present value is empty)"
    ∧ clean_data tblC6b = .ok (tblC6b, 0) := by
  exact ⟨rfl, rfl⟩

/-! ## Deduplication lemmas -/

theorem dropDupAux_congr_seen {α : Type} [DecidableEq α] (l : List α)
    (s1 s2 : List α) (h : ∀ a, a ∈ s1 ↔ a ∈ s2) :
    dropDupAux s1 l = dropDupAux s2 l := by
  induction l generalizing s1 s2 with
  | nil => rfl
  | cons x xs ih =>
    simp only [dropDupAux]
    by_cases hx : x ∈ s1
    · rw [if_pos hx, if_pos ((h x).1 hx), ih s1 s2 h]
    · rw [if_neg hx, if_neg (fun hc => hx ((h x).2 hc))]
      have : ∀ a, a ∈ x :: s1 ↔ a ∈ x :: s2 := by
        intro a; simp [h a]
      rw [ih _ _ this]

theorem mem_dropDupAux {α : Type} [DecidableEq α] (l : List α) (seen : List α)
    (a : α) : a ∈ dropDupAux seen l ↔ a ∈ l ∧ a ∉ seen := by
  induction l generalizing seen with
  | nil => simp [dropDupAux]
  | cons x xs ih =>
    simp only [dropDupAux]
    by_cases hx : x ∈ seen
    · rw [if_pos hx, ih]
      constructor
      · rintro ⟨h1, h2⟩; exact ⟨List.mem_cons_of_mem _ h1, h2⟩
      · rintro ⟨h1, h2⟩
        rcases List.mem_cons.1 h1 with rfl | h1
        · exact absurd hx h2
        · exact ⟨h1, h2⟩
    · rw [if_neg hx]
      rcases eq_or_ne a x with rfl | hax
      · simp [hx]
      · simp only [List.mem_cons, hax, false_or, ih, List.mem_cons]

theorem dropDupAux_nodup {α : Type} [DecidableEq α] (l : List α) (seen : List α) :
    (dropDupAux seen l).Nodup := by
  induction l generalizing seen with
  | nil => exact List.nodup_nil
  | cons x xs ih =>
    simp only [dropDupAux]
    by_cases hx : x ∈ seen
    · rw [if_pos hx]; exact ih seen
    · rw [if_neg hx]
      refine List.nodup_cons.2 ⟨fun hc => ?_, ih (x :: seen)⟩
      exact ((mem_dropDupAux xs (x :: seen) x).1 hc).2 (List.mem_cons_self x seen)

theorem dropDupAux_sublist {α : Type} [DecidableEq α] (l : List α) (seen : List α) :
    (dropDupAux seen l).Sublist l := by
  induction l generalizing seen with
  | nil => exact List.Sublist.refl []
  | cons x xs ih =>
    simp only [dropDupAux]
    by_cases hx : x ∈ seen
    · rw [if_pos hx]; exact (ih seen).cons x
    · rw [if_neg hx]; exact (ih (x :: seen)).cons₂ x

theorem dropDupAux_cons_seen {α : Type} [DecidableEq α] (l : List α)
    (x : α) (seen : List α) :
    dropDupAux (x :: seen) l = dropDupAux seen (l.filter (fun y => y ≠ x)) := by
  induction l generalizing seen with
  | nil => rfl
  | cons a as ih =>
    rcases eq_or_ne a x with rfl | hax
    · have hcond : (decide (a ≠ a)) = false := by simp
      simp only [dropDupAux, List.filter_cons, hcond, Bool.false_eq_true,
        if_false, if_pos (List.mem_cons_self a seen)]
      exact ih seen
    · have hcond : (decide (a ≠ x)) = true := by simp [hax]
      simp only [dropDupAux, List.filter_cons, hcond, if_true]
      by_cases ha : a ∈ seen
      · rw [if_pos (List.mem_cons_of_mem _ ha), if_pos ha]
        exact ih seen
      · have hnot : a ∉ x :: seen := by simp [hax, ha]
        rw [if_neg hnot, if_neg ha]
        congr 1
        rw [dropDupAux_congr_seen as (a :: x :: seen) (x :: a :: seen)
          (by intro b; simp; tauto)]
        exact ih (a :: seen)

/-- Keep-first characterization: the head is kept and every later exact
duplicate of it is dropped before the rest is deduplicated. -/
theorem dropDuplicates_cons {α : Type} [DecidableEq α] (x : α) (xs : List α) :
    dropDuplicates (x :: xs) =
      x :: dropDuplicates (xs.filter (fun y => y ≠ x)) := by
  show dropDupAux [] (x :: xs) = _
  simp only [dropDupAux, List.not_mem_nil, if_neg (fun h => h)]
  rw [show (x :: ([] : List α)) = [x] from rfl, dropDupAux_cons_seen]
  rfl

theorem mem_dropDuplicates {α : Type} [DecidableEq α] (l : List α) (a : α) :
    a ∈ dropDuplicates l ↔ a ∈ l := by
  rw [dropDuplicates, mem_dropDupAux]
  simp

theorem dropDuplicates_toFinset {α : Type} [DecidableEq α] (l : List α) :
    (dropDuplicates l).toFinset = l.toFinset := by
  ext a
  simp [List.mem_toFinset, mem_dropDuplicates]

theorem dropDuplicates_nodup {α : Type} [DecidableEq α] (l : List α) :
    (dropDuplicates l).Nodup :=
  dropDupAux_nodup l []

theorem dropDuplicates_sublist {α : Type} [DecidableEq α] (l : List α) :
    (dropDuplicates l).Sublist l :=
  dropDupAux_sublist l []

theorem dropDuplicates_length_eq_card {α : Type} [DecidableEq α] (l : List α) :
    (dropDuplicates l).length = l.toFinset.card := by
  rw [← dropDuplicates_toFinset]
  exact (List.toFinset_card_of_nodup (dropDuplicates_nodup l)).symm

theorem toFinset_card_of_triple {α : Type} [DecidableEq α] (l : List α) (r : α)
    (h3 : l.countP (fun s => decide (s = r)) = 3)
    (h1 : ∀ s ∈ l, s ≠ r → l.countP (fun x => decide (x = s)) = 1) :
    l.toFinset.card = l.length - 2 ∧ 2 ≤ l.length := by
  have h3c : l.count r = 3 := h3
  have h1c : ∀ s ∈ l, s ≠ r → l.count s = 1 := fun s hs hne => h1 s hs hne
  have hr : r ∈ l := List.count_pos_iff.1 (by omega)
  have hrf : r ∈ l.toFinset := List.mem_toFinset.2 hr
  have hsum : ∑ a ∈ l.toFinset, l.count a = l.length := by
    simp [Multiset.coe_count]
  have herase : ∑ a ∈ l.toFinset.erase r, l.count a =
      (l.toFinset.erase r).card := by
    rw [Finset.card_eq_sum_ones]
    refine Finset.sum_congr rfl (fun a ha => ?_)
    have hal : a ∈ l := List.mem_toFinset.1 (Finset.mem_of_mem_erase ha)
    exact h1c a hal (Finset.ne_of_mem_erase ha)
  have e1 : l.count r + ∑ a ∈ l.toFinset.erase r, l.count a =
      ∑ a ∈ l.toFinset, l.count a :=
    Finset.add_sum_erase l.toFinset (fun a => l.count a) hrf
  have hcard : (l.toFinset.erase r).card = l.toFinset.card - 1 :=
    Finset.card_erase_of_mem hrf
  have hpos : 1 ≤ l.toFinset.card := Finset.card_pos.2 ⟨r, hrf⟩
  rw [herase, hsum, hcard, h3c] at e1
  omega

/-- C7.  Deduplication during cleaning compares rows by exact full-row
equality (a missing cell equals a missing cell, as in pandas), keeps the
first occurrence of each distinct row in insertion order (head kept, later
exact duplicates dropped, recursively), reports
`initial_rows - len(self.df)` as the removed count, and collapses a table
with one row occurring three times and all other rows distinct from
`N` rows to `N - 2` rows with a removed count of `2`. -/
theorem C7_drop_duplicates_keeps_first (l : List Row) (r : Row)
    (h3 : l.countP (fun s => decide (s = r)) = 3)
    (h1 : ∀ s ∈ l, s ≠ r → l.countP (fun x => decide (x = s)) = 1) :
    (∀ (x : Row) (xs : List Row),
        dropDuplicates (x :: xs) =
          x :: dropDuplicates (xs.filter (fun y => y ≠ x)))
    ∧ (dropDuplicates l).Nodup
    ∧ (dropDuplicates l).Sublist l
    ∧ (∀ s : Row, s ∈ dropDuplicates l ↔ s ∈ l)
    ∧ (∀ (t : Table) (res : Table × Nat), clean_data t = .ok res →
        res.2 = t.rows.length - (dropDuplicates t.rows).length)
    ∧ (dropDuplicates l).length = l.length - 2
    ∧ l.length - (dropDuplicates l).length = 2 := by
  have hcard := toFinset_card_of_triple l r h3 h1
  have hlen := dropDuplicates_length_eq_card l
  have hle : (dropDuplicates l).length ≤ l.length :=
    (dropDuplicates_sublist l).length_le
  refine ⟨fun x xs => dropDuplicates_cons x xs,
    dropDuplicates_nodup l, dropDuplicates_sublist l,
    fun s => mem_dropDuplicates l s, ?_, by omega, by omega⟩
  intro t res hres
  unfold clean_data at hres
  by_cases h : 0 < totalMissing t.header.length (dropDuplicates t.rows)
  · rw [if_pos h] at hres
    rcases hm : imputeTextCols t.header.enum
        (imputeNumericCols t.header.enum (dropDuplicates t.rows)) with e | rows2
    · rw [hm] at hres; cases hres
    · rw [hm] at hres
      cases hres
      rfl
  · rw [if_neg h] at hres
    cases hres
    rfl

/-- A five-row list in which one row occurs three times and the other two
rows are distinct. -/
def wl7 : List Row :=
  [[some (Value.ts 7 0)], [some (Value.ts 7 0)], [some (Value.ts 8 0)],
    [some (Value.ts 7 0)], [some (Value.ts 9 0)]]

/-- The row repeated three times in `wl7`. -/
def wr7 : Row := [some (Value.ts 7 0)]

/-- Witness for C7 at a concrete five-row table: the repeated-row count is
three, and deduplication collapses the five rows to three with a removed
count of two. -/
theorem C7_drop_duplicates_keeps_first_witness :
    wl7.countP (fun s => decide (s = wr7)) = 3
    ∧ (dropDuplicates wl7).length = wl7.length - 2
    ∧ wl7.length - (dropDuplicates wl7).length = 2 :=
  ⟨by decide,
    (C7_drop_duplicates_keeps_first wl7 wr7 (by decide) (by decide)).2.2.2.2.2.1,
    (C7_drop_duplicates_keeps_first wl7 wr7 (by decide) (by decide)).2.2.2.2.2.2⟩

/-! ## Imputation touches only missing cells -/

/-- Row-level preservation: every present cell of `r` is present with the
same value in `r2`. -/
def RowPreserves (r r2 : Row) : Prop :=
  ∀ j v, cellAt r j = some v → cellAt r2 j = some v

theorem rowPreserves_refl (r : Row) : RowPreserves r r :=
  fun _ _ h => h

theorem rowPreserves_trans {r1 r2 r3 : Row} (h12 : RowPreserves r1 r2)
    (h23 : RowPreserves r2 r3) : RowPreserves r1 r3 :=
  fun j v h => h23 j v (h12 j v h)

theorem rowPreserves_fillRow (j : Nat) (v : Value) (r : Row) :
    RowPreserves r (if (cellAt r j).isNone then r.set j (some v) else r) := by
  intro j2 w hw
  by_cases hj : (cellAt r j).isNone
  · rw [if_pos hj]
    rcases eq_or_ne j2 j with rfl | hne
    · rw [hw] at hj; simp at hj
    · show (r.set j (some v)).getD j2 none = some w
      rw [List.getD_eq_getElem?_getD, List.getElem?_set_ne (Ne.symm hne),
        ← List.getD_eq_getElem?_getD]
      exact hw
  · rw [if_neg hj]; exact hw

/-- List-level preservation, pairing rows positionally. -/
def Preserves (rows rows2 : List Row) : Prop :=
  List.Forall₂ RowPreserves rows rows2

theorem preserves_refl (rows : List Row) : Preserves rows rows := by
  induction rows with
  | nil => exact List.Forall₂.nil
  | cons r rs ih => exact List.Forall₂.cons (rowPreserves_refl r) ih

theorem preserves_trans {l1 l2 l3 : List Row} (h12 : Preserves l1 l2)
    (h23 : Preserves l2 l3) : Preserves l1 l3 := by
  induction h12 generalizing l3 with
  | nil => cases h23; exact List.Forall₂.nil
  | cons h hs ih =>
    cases h23 with
    | cons h2 hs2 => exact List.Forall₂.cons (rowPreserves_trans h h2) (ih hs2)

theorem preserves_fillAt (rows : List Row) (j : Nat) (v : Value) :
    Preserves rows (fillAt rows j v) := by
  induction rows with
  | nil => exact List.Forall₂.nil
  | cons r rs ih => exact List.Forall₂.cons (rowPreserves_fillRow j v r) ih

theorem preserves_imputeNumericCols (cols : List (Nat × (String × Dtype)))
    (rows : List Row) : Preserves rows (imputeNumericCols cols rows) := by
  induction cols generalizing rows with
  | nil => exact preserves_refl rows
  | cons c rest ih =>
    obtain ⟨j, nm, dt⟩ := c
    simp only [imputeNumericCols]
    by_cases hc : dt = .numeric ∧ 0 < missingCount rows j
    · rw [if_pos hc]
      rcases hm : median (presentRats rows j) with _ | m
      · exact ih rows
      · exact preserves_trans (preserves_fillAt rows j (.num m)) (ih _)
    · rw [if_neg hc]; exact ih rows

theorem preserves_imputeTextCols (cols : List (Nat × (String × Dtype)))
    (rows rows2 : List Row) (h : imputeTextCols cols rows = .ok rows2) :
    Preserves rows rows2 := by
  induction cols generalizing rows with
  | nil =>
    simp only [imputeTextCols] at h
    cases h
    exact preserves_refl _
  | cons c rest ih =>
    obtain ⟨j, nm, dt⟩ := c
    simp only [imputeTextCols] at h
    by_cases hc : dt = .text ∧ 0 < missingCount rows j
    · rw [if_pos hc] at h
      rcases hm : seriesMode (presentCells rows j) with _ | m
      · rw [hm] at h; cases h
      · rw [hm] at h
        exact preserves_trans (preserves_fillAt rows j m) (ih _ h)
    · rw [if_neg hc] at h
      exact ih rows h

/-- C10.  Cleaning never alters a present value: the surviving rows are the
first occurrences kept by deduplication (a sublist of the input rows, so
each still holds its original cells at that point), and every cell that is
present in a surviving row before imputation holds the same value in the
cleaned table — imputation writes only to cells that were missing. -/
theorem C10_cleaning_preserves_present_cells (t : Table) (t1 : Table) (k : Nat)
    (h : clean_data t = .ok (t1, k)) :
    (dropDuplicates t.rows).Sublist t.rows
    ∧ Preserves (dropDuplicates t.rows) t1.rows := by
  refine ⟨dropDuplicates_sublist t.rows, ?_⟩
  unfold clean_data at h
  by_cases hm : 0 < totalMissing t.header.length (dropDuplicates t.rows)
  · rw [if_pos hm] at h
    rcases he : imputeTextCols t.header.enum
        (imputeNumericCols t.header.enum (dropDuplicates t.rows)) with e | rows2
    · rw [he] at h; cases h
    · rw [he] at h
      cases h
      exact preserves_trans
        (preserves_imputeNumericCols t.header.enum (dropDuplicates t.rows))
        (preserves_imputeTextCols t.header.enum _ _ he)
  · rw [if_neg hm] at h
    cases h
    exact preserves_refl _

/-- A table with a present text cell, a missing text cell and timestamps. -/
def tw10 : Table :=
  { header := [("category", .text), ("order_date", .datetime)],
    rows := [[some (.str "x"), some (.ts 1 1)], [none, some (.ts 2 1)]] }

/-- The cleaned form of `tw10`: the missing category imputed with the mode. -/
def tw10c : Table :=
  { header := [("category", .text), ("order_date", .datetime)],
    rows := [[some (.str "x"), some (.ts 1 1)],
             [some (.str "x"), some (.ts 2 1)]] }

/-- Witness for C10 at a concrete table whose cleaning imputes one missing
cell: all present cells survive with their values. -/
theorem C10_cleaning_preserves_present_cells_witness :
    (dropDuplicates tw10.rows).Sublist tw10.rows
    ∧ Preserves (dropDuplicates tw10.rows) tw10c.rows :=
  C10_cleaning_preserves_present_cells tw10 tw10c 0 (by rfl)

/-! ## Order properties of the value comparison and the groupby keys -/

theorem value_le_total (a b : Value) :
    Value.le a b = true ∨ Value.le b a = true := by
  cases a <;> cases b <;> simp [Value.le, Value.rank] <;>
    first
    | omega
    | exact le_total _ _

theorem value_le_antisymm (a b : Value) (h1 : Value.le a b = true)
    (h2 : Value.le b a = true) : a = b := by
  cases a <;> cases b <;> simp [Value.le, Value.rank] at h1 h2 ⊢ <;>
    first
    | omega
    | exact le_antisymm h1 h2
    | exact String.ext (le_antisymm h1 h2)

theorem value_le_trans (a b c : Value) (h1 : Value.le a b = true)
    (h2 : Value.le b c = true) : Value.le a c = true := by
  cases a <;> cases b <;> cases c <;>
    simp [Value.le, Value.rank] at h1 h2 ⊢ <;>
    first
    | omega
    | exact le_trans h1 h2

/-- Strict order used for the groupby key invariant. -/
def vLt (a b : Value) : Prop := Value.le a b = true ∧ a ≠ b

theorem mem_insertKey (x : Value) (l : List Value) (a : Value) :
    a ∈ insertKey x l ↔ a = x ∨ a ∈ l := by
  induction l with
  | nil => simp [insertKey]
  | cons y ys ih =>
    simp only [insertKey]
    by_cases hxy : x = y
    · rw [if_pos hxy]
      subst hxy
      simp only [List.mem_cons]
      tauto
    · rw [if_neg hxy]
      by_cases hle : Value.le x y = true
      · rw [if_pos hle]
        simp only [List.mem_cons]
      · rw [if_neg hle]
        simp only [List.mem_cons, ih]
        tauto

theorem pairwise_insertKey (x : Value) (l : List Value)
    (h : l.Pairwise vLt) : (insertKey x l).Pairwise vLt := by
  induction l with
  | nil => simp [insertKey]
  | cons y ys ih =>
    rcases List.pairwise_cons.1 h with ⟨hy, hys⟩
    simp only [insertKey]
    by_cases hxy : x = y
    · rw [if_pos hxy]
      subst hxy
      exact h
    · rw [if_neg hxy]
      by_cases hle : Value.le x y = true
      · rw [if_pos hle]
        refine List.pairwise_cons.2 ⟨?_, h⟩
        intro z hz
        rcases List.mem_cons.1 hz with rfl | hz2
        · exact ⟨hle, hxy⟩
        · rcases hy z hz2 with ⟨hyz, hne⟩
          refine ⟨value_le_trans x y z hle hyz, fun hcon => ?_⟩
          subst hcon
          exact hne (value_le_antisymm y x hyz hle)
      · rw [if_neg hle]
        have hyx : Value.le y x = true := by
          rcases value_le_total x y with hc | hc
          · exact absurd hc hle
          · exact hc
        refine List.pairwise_cons.2 ⟨?_, ih hys⟩
        intro z hz
        rcases (mem_insertKey x ys z).1 hz with rfl | hz2
        · exact ⟨hyx, fun hcon => hxy hcon.symm⟩
        · exact hy z hz2

theorem pairwise_sortedKeys (vals : List Value) :
    (sortedKeys vals).Pairwise vLt := by
  induction vals with
  | nil => exact List.Pairwise.nil
  | cons v vs ih => exact pairwise_insertKey v (sortedKeys vs) ih

theorem mem_sortedKeys (vals : List Value) (a : Value) :
    a ∈ sortedKeys vals ↔ a ∈ vals := by
  induction vals with
  | nil => simp [sortedKeys]
  | cons v vs ih =>
    show a ∈ insertKey v (sortedKeys vs) ↔ _
    rw [mem_insertKey]
    simp [ih]

theorem nodup_sortedKeys (vals : List Value) : (sortedKeys vals).Nodup :=
  (pairwise_sortedKeys vals).imp (fun h => h.2)

/-! ## Partition of the amount sum by groupby keys -/

theorem sum_map_filter_split {α : Type} (p : α → Bool) (f : α → ℚ) (l : List α) :
    ((l.filter p).map f).sum + ((l.filter (fun a => !(p a))).map f).sum
      = (l.map f).sum := by
  induction l with
  | nil => simp
  | cons a l ih =>
    by_cases h : p a = true
    · rw [List.filter_cons, List.filter_cons, if_pos h, if_neg (by simp [h])]
      simp only [List.map_cons, List.sum_cons]
      rw [add_assoc, ih]
    · have hb : p a = false := by revert h; cases p a <;> simp
      rw [List.filter_cons, List.filter_cons, if_neg (by simp [hb]),
        if_pos (by simp [hb])]
      simp only [List.map_cons, List.sum_cons]
      rw [add_left_comm, ih]

theorem sum_over_groups (keys : List Value) (keyOf : Row → Cell) (f : Row → ℚ) :
    ∀ rows : List Row, keys.Nodup →
      (∀ r ∈ rows, ∃ k ∈ keys, keyOf r = some k) →
      (keys.map (fun k =>
        ((rows.filter (fun r => decide (keyOf r = some k))).map f).sum)).sum
        = (rows.map f).sum := by
  induction keys with
  | nil =>
    intro rows hnd hcov
    cases rows with
    | nil => simp
    | cons r rs =>
      rcases hcov r (List.mem_cons_self r rs) with ⟨k, hk, _⟩
      exact absurd hk (List.not_mem_nil k)
  | cons k ks ih =>
    intro rows hnd hcov
    rw [List.map_cons, List.sum_cons]
    have hnd2 := List.nodup_cons.1 hnd
    have hmapeq : ks.map (fun k2 =>
        ((rows.filter (fun r => decide (keyOf r = some k2))).map f).sum) =
        ks.map (fun k2 =>
          (((rows.filter (fun r => !(decide (keyOf r = some k)))).filter
            (fun r => decide (keyOf r = some k2))).map f).sum) := by
      refine List.map_congr_left (fun k2 hk2 => ?_)
      rw [List.filter_filter]
      have : rows.filter (fun r => decide (keyOf r = some k2)) =
          rows.filter (fun r =>
            decide (keyOf r = some k2) && !(decide (keyOf r = some k))) := by
        refine List.filter_congr (fun r _ => ?_)
        by_cases hr : keyOf r = some k2
        · have hk2k : k2 ≠ k := fun hc => hnd2.1 (hc ▸ hk2)
          simp [hr, hk2k]
        · simp [hr]
      rw [← this]
    rw [hmapeq]
    have hcov2 : ∀ r ∈ rows.filter (fun r => !(decide (keyOf r = some k))),
        ∃ k2 ∈ ks, keyOf r = some k2 := by
      intro r hr
      rcases List.mem_filter.1 hr with ⟨hrm, hcond⟩
      rcases hcov r hrm with ⟨k2, hk2, hkey⟩
      rcases List.mem_cons.1 hk2 with rfl | hk2s
      · exfalso
        simp [hkey] at hcond
      · exact ⟨k2, hk2s, hkey⟩
    rw [ih _ hnd2.2 hcov2]
    exact sum_map_filter_split (fun r => decide (keyOf r = some k)) f rows

theorem sum_filterMap_eq_sum_map {α : Type} (g : α → Option ℚ) (l : List α) :
    (l.filterMap g).sum = (l.map (fun a => (g a).getD 0)).sum := by
  induction l with
  | nil => rfl
  | cons a l ih =>
    cases hg : g a with
    | none => simp [List.filterMap_cons, hg, ih]
    | some q => simp [List.filterMap_cons, hg, ih]

theorem insertDesc_perm (x : CatRow) (l : List CatRow) :
    (insertDesc x l).Perm (x :: l) := by
  induction l with
  | nil => exact List.Perm.refl _
  | cons y ys ih =>
    simp only [insertDesc]
    by_cases h : y.total_amount ≤ x.total_amount
    · rw [if_pos h]
    · rw [if_neg h]
      exact (ih.cons y).trans (List.Perm.swap x y ys)

theorem sortByTotalDesc_perm (l : List CatRow) : (sortByTotalDesc l).Perm l := by
  induction l with
  | nil => exact List.Perm.refl _
  | cons x xs ih =>
    exact (insertDesc_perm x (sortByTotalDesc xs)).trans (ih.cons x)

/-- C9.  When the `category` column is present and has a value in every
row, the summed `total_amount` of the category rollup over all categories
equals `basicStats.total_sales`: the groups partition the rows, group sums
skip the same missing amounts the total sum skips, and the descending sort
only permutes the groups. -/
theorem C9_rollup_totals_sum_to_total_sales (t : Table) (st : Stats)
    (rollup : List CatRow) (jcat : Nat)
    (hjc : colIdx t.header "category" = some jcat)
    (hcov : ∀ r ∈ t.rows, ∃ v, cellAt r jcat = some v)
    (hst : calculate_basic_stats t = .ok st)
    (hroll : analyze_sales_by_category t = .ok rollup) :
    (rollup.map (fun c => c.total_amount)).sum = st.total_sales := by
  unfold analyze_sales_by_category at hroll
  rw [hjc] at hroll
  simp only [] at hroll
  rcases hq : colIdx t.header "total_amount" with _ | ja <;> rw [hq] at hroll
  · cases hroll
  rcases hq2 : colIdx t.header "quantity" with _ | jq <;> rw [hq2] at hroll
  · cases hroll
  rcases hq3 : colIdx t.header "order_id" with _ | jo <;> rw [hq3] at hroll
  · cases hroll
  simp only [] at hroll
  injection hroll with hroll
  subst hroll
  -- extract total_sales from the stats computation
  unfold calculate_basic_stats at hst
  rw [hq] at hst
  rcases hc1 : colIdx t.header "customer_id" with _ | jc <;> rw [hc1] at hst
  · cases hst
  rcases hc2 : colIdx t.header "product_id" with _ | jp <;> rw [hc2] at hst
  · cases hst
  have hsales : st.total_sales = (presentRats t.rows ja).sum := by
    rcases hc3 : colIdx t.header "order_date" with _ | jd
    · simp only [hq, hc1, hc2, hc3] at hst
      injection hst with hst
      subst hst
      rfl
    · rcases hmn : seriesMin (presentCells t.rows jd) with _ | mn
      · simp only [hq, hc1, hc2, hc3, hmn] at hst
        cases hst
      · rcases hmx : seriesMax (presentCells t.rows jd) with _ | mx
        · simp only [hq, hc1, hc2, hc3, hmn, hmx] at hst
          cases hst
        · simp only [hq, hc1, hc2, hc3, hmn, hmx] at hst
          injection hst with hst
          subst hst
          rfl
  rw [hsales]
  -- the sort is a permutation, so the map-sum is over the raw groups
  have hperm := (sortByTotalDesc_perm
    ((sortedKeys (presentCells t.rows jcat)).map (fun k =>
      let g := t.rows.filter (fun r => decide (cellAt r jcat = some k))
      { category := k
        total_amount := (presentRats g ja).sum
        quantity := (presentRats g jq).sum
        order_count := countPresent g jo : CatRow }))).map
    (fun c => c.total_amount)
  rw [hperm.sum_eq, List.map_map]
  have hbridge : ∀ l : List Row, (presentRats l ja).sum =
      (l.map (fun r => ((cellAt r ja).bind toRat).getD 0)).sum := by
    intro l
    exact sum_filterMap_eq_sum_map (fun r => (cellAt r ja).bind toRat) l
  have hrw : ((sortedKeys (presentCells t.rows jcat)).map
      ((fun c => c.total_amount) ∘ (fun k =>
        let g := t.rows.filter (fun r => decide (cellAt r jcat = some k))
        { category := k
          total_amount := (presentRats g ja).sum
          quantity := (presentRats g jq).sum
          order_count := countPresent g jo : CatRow }))) =
      (sortedKeys (presentCells t.rows jcat)).map (fun k =>
        ((t.rows.filter (fun r => decide (cellAt r jcat = some k))).map
          (fun r => ((cellAt r ja).bind toRat).getD 0)).sum) := by
    refine List.map_congr_left (fun k hk => ?_)
    simp only [Function.comp]
    exact hbridge _
  rw [hrw, hbridge t.rows]
  refine sum_over_groups (sortedKeys (presentCells t.rows jcat))
    (fun r => cellAt r jcat) _ t.rows
    (nodup_sortedKeys _) (fun r hr => ?_)
  rcases hcov r hr with ⟨v, hv⟩
  refine ⟨v, ?_, hv⟩
  rw [mem_sortedKeys]
  exact List.mem_filterMap.2 ⟨r, hr, hv⟩

/-- A two-row table with two categories, full category coverage and every
column the stats and rollup calls need. -/
def tw9 : Table :=
  { header := [("category", .text), ("total_amount", .numeric),
      ("quantity", .numeric), ("order_id", .numeric),
      ("customer_id", .numeric), ("product_id", .numeric)],
    rows := [[some (.str "b"), some (.num 1), some (.num 1), some (.num 1),
        some (.num 1), some (.num 1)],
      [some (.str "a"), some (.num 1), some (.num 2), some (.num 2),
        some (.num 2), some (.num 1)]] }

/-- The stats of `tw9`. -/
def stW9 : Stats :=
  { total_sales := 2, average_order := .val 1, total_orders := 2,
    unique_customers := 2, unique_products := 1, date_range := none }

/-- The category rollup of `tw9`. -/
def rollupW9 : List CatRow :=
  [{ category := .str "a", total_amount := 1, quantity := 2, order_count := 1 },
   { category := .str "b", total_amount := 1, quantity := 1, order_count := 1 }]

/-- Witness for C9 at `tw9`: the rollup totals sum to the total sales. -/
theorem C9_rollup_totals_sum_to_total_sales_witness :
    (rollupW9.map (fun c => c.total_amount)).sum = stW9.total_sales := by
  refine C9_rollup_totals_sum_to_total_sales tw9 stW9 rollupW9 0 rfl ?_ ?_ ?_
  · intro r hr
    simp only [tw9, List.mem_cons, List.not_mem_nil, or_false] at hr
    rcases hr with rfl | rfl
    · exact ⟨.str "b", rfl⟩
    · exact ⟨.str "a", rfl⟩
  · simp [calculate_basic_stats, tw9, stW9, colIdx, List.findIdx?, presentRats,
      cellAt, toRat, seriesMean, nunique, dropDuplicates, dropDupAux,
      presentCells]
    norm_num
  · have hab : Value.le (Value.str "a") (Value.str "b") = true := by
      simp only [Value.le, decide_eq_true_eq]
      rw [String.le_iff_toList_le]
      decide
    have hba : Value.le (Value.str "b") (Value.str "a") = false := by
      simp only [Value.le, decide_eq_false_iff_not]
      rw [String.le_iff_toList_le]
      decide
    simp [analyze_sales_by_category, tw9, rollupW9, colIdx, List.findIdx?,
      sortedKeys, insertKey, hab, hba, presentCells, presentRats, cellAt,
      toRat, countPresent, sortByTotalDesc, insertDesc]

/-! ## Order of the category rollup -/

/-- The order the rollup actually carries: strictly decreasing summed
`total_amount`, with equal sums ordered by ascending category value (the
`groupby` key order), not by first encounter. -/
def lexDesc (x y : CatRow) : Prop :=
  y.total_amount < x.total_amount ∨
    (x.total_amount = y.total_amount ∧ vLt x.category y.category)

theorem mem_insertDesc (x : CatRow) (l : List CatRow) (w : CatRow) :
    w ∈ insertDesc x l ↔ w = x ∨ w ∈ l := by
  induction l with
  | nil => simp [insertDesc]
  | cons y ys ih =>
    simp only [insertDesc]
    by_cases h : y.total_amount ≤ x.total_amount
    · rw [if_pos h]
      simp only [List.mem_cons]
    · rw [if_neg h]
      simp only [List.mem_cons, ih]
      tauto

theorem pairwise_insertDesc (x : CatRow) (l : List CatRow)
    (hl : l.Pairwise lexDesc) (hx : ∀ y ∈ l, vLt x.category y.category) :
    (insertDesc x l).Pairwise lexDesc := by
  induction l with
  | nil => simp [insertDesc, List.pairwise_cons]
  | cons y ys ih =>
    rcases List.pairwise_cons.1 hl with ⟨hy, hys⟩
    simp only [insertDesc]
    by_cases h : y.total_amount ≤ x.total_amount
    · rw [if_pos h]
      refine List.pairwise_cons.2 ⟨?_, hl⟩
      intro z hz
      rcases List.mem_cons.1 hz with rfl | hz2
      · rcases lt_or_eq_of_le h with hlt | heq
        · exact Or.inl hlt
        · exact Or.inr ⟨heq.symm, hx z (List.mem_cons_self z ys)⟩
      · rcases hy z hz2 with hlt | ⟨heq, _⟩
        · exact Or.inl (lt_of_lt_of_le hlt h)
        · rcases lt_or_eq_of_le h with hlt2 | heq2
          · exact Or.inl (heq ▸ hlt2)
          · exact Or.inr ⟨by rw [← heq2, heq],
              hx z (List.mem_cons_of_mem y hz2)⟩
    · rw [if_neg h]
      have hxy : x.total_amount < y.total_amount := lt_of_not_le h
      refine List.pairwise_cons.2 ⟨?_, ih hys
        (fun z hz => hx z (List.mem_cons_of_mem y hz))⟩
      intro w hw
      rcases (mem_insertDesc x ys w).1 hw with rfl | hw2
      · exact Or.inl hxy
      · exact hy w hw2

theorem pairwise_sortByTotalDesc (l : List CatRow)
    (hl : l.Pairwise (fun a b => vLt a.category b.category)) :
    (sortByTotalDesc l).Pairwise lexDesc := by
  induction l with
  | nil => exact List.Pairwise.nil
  | cons x xs ih =>
    rcases List.pairwise_cons.1 hl with ⟨hx, hxs⟩
    refine pairwise_insertDesc x (sortByTotalDesc xs) (ih hxs) ?_
    intro y hy
    exact hx y ((sortByTotalDesc_perm xs).mem_iff.1 hy)

/-- A table whose two categories tie on summed `total_amount` and are
first encountered in the order `"b"`, `"a"`. -/
def tblC5 : Table :=
  { header := [("category", .text), ("total_amount", .numeric),
      ("quantity", .numeric), ("order_id", .numeric)],
    rows := [[some (.str "b"), some (.num 1), some (.num 1), some (.num 1)],
             [some (.str "a"), some (.num 1), some (.num 1), some (.num 2)]] }

/-- C5, counterexample.  On `tblC5` the two categories tie on summed
`total_amount` (both 1), are first encountered in the order `"b"`, `"a"`,
yet the rollup lists them as `"a"`, `"b"`: `groupby` emits its groups in
ascending key order, so tied categories appear alphabetically, not in
first-encountered order as the claim states. -/
theorem C5_tie_order_counterexample :
    (analyze_sales_by_category tblC5).map (fun l => l.map (fun c => c.category)) =
      .ok [Value.str "a", Value.str "b"]
    ∧ (analyze_sales_by_category tblC5).map
        (fun l => l.map (fun c => c.total_amount)) = .ok [1, 1]
    ∧ dropDuplicates (presentCells tblC5.rows 0) = [Value.str "b", Value.str "a"]
    ∧ [Value.str "a", Value.str "b"] ≠ [Value.str "b", Value.str "a"] := by
  have hab : Value.le (Value.str "a") (Value.str "b") = true := by
    simp only [Value.le, decide_eq_true_eq]
    rw [String.le_iff_toList_le]
    decide
  have hba : Value.le (Value.str "b") (Value.str "a") = false := by
    simp only [Value.le, decide_eq_false_iff_not]
    rw [String.le_iff_toList_le]
    decide
  refine ⟨?_, ?_, by decide, by decide⟩ <;>
    simp [analyze_sales_by_category, tblC5, colIdx, List.findIdx?, sortedKeys,
      insertKey, hab, hba, presentCells, presentRats, cellAt, toRat,
      countPresent, sortByTotalDesc, insertDesc, Except.map]

/-- C5, amended.  The rollup is sorted by summed `total_amount` in
non-increasing order; two categories with equal summed `total_amount`
appear in ascending order of the category value (the `groupby` key order),
not in first-encountered order. -/
theorem C5_rollup_sorted_desc_ties_ascending_category (t : Table)
    (rollup : List CatRow) (h : analyze_sales_by_category t = .ok rollup) :
    rollup.Pairwise lexDesc := by
  unfold analyze_sales_by_category at h
  rcases hc : colIdx t.header "category" with _ | jcat <;> rw [hc] at h
  · injection h with h
    subst h
    exact List.Pairwise.nil
  rcases hq : colIdx t.header "total_amount" with _ | ja <;> rw [hq] at h
  · cases h
  rcases hq2 : colIdx t.header "quantity" with _ | jq <;> rw [hq2] at h
  · cases h
  rcases hq3 : colIdx t.header "order_id" with _ | jo <;> rw [hq3] at h
  · cases h
  simp only [] at h
  injection h with h
  subst h
  refine pairwise_sortByTotalDesc _ ?_
  rw [List.pairwise_map]
  exact pairwise_sortedKeys (presentCells t.rows jcat)

/-- The rollup of `tblC5`. -/
def rollupC5 : List CatRow :=
  [{ category := .str "a", total_amount := 1, quantity := 1, order_count := 1 },
   { category := .str "b", total_amount := 1, quantity := 1, order_count := 1 }]

/-- Witness for the amended C5 at `tblC5`: the tied categories appear in
ascending category order. -/
theorem C5_rollup_sorted_desc_ties_ascending_category_witness :
    rollupC5.Pairwise lexDesc := by
  refine C5_rollup_sorted_desc_ties_ascending_category tblC5 rollupC5 ?_
  have hab : Value.le (Value.str "a") (Value.str "b") = true := by
    simp only [Value.le, decide_eq_true_eq]
    rw [String.le_iff_toList_le]
    decide
  have hba : Value.le (Value.str "b") (Value.str "a") = false := by
    simp only [Value.le, decide_eq_false_iff_not]
    rw [String.le_iff_toList_le]
    decide
  simp [analyze_sales_by_category, tblC5, rollupC5, colIdx, List.findIdx?,
    sortedKeys, insertKey, hab, hba, presentCells, presentRats, cellAt,
    toRat, countPresent, sortByTotalDesc, insertDesc]

/-! ## State of the columns after a successful clean -/

/-- Column `j` has a value in every row. -/
def NoMissing (rows : List Row) (j : Nat) : Prop :=
  ∀ r ∈ rows, (cellAt r j).isSome = true

/-- Column `j` holds no numeric value in any row (so its median is NaN and
`fillna` is a no-op). -/
def NoNums (rows : List Row) (j : Nat) : Prop :=
  ∀ r ∈ rows, (cellAt r j).bind toRat = none

theorem cellAt_set_self (r : Row) (j : Nat) (v : Cell) (h : j < r.length) :
    cellAt (r.set j v) j = v := by
  show (r.set j v).getD j none = v
  rw [List.getD_eq_getElem?_getD, List.getElem?_set_self h]
  rfl

theorem cellAt_set_other (r : Row) (j j2 : Nat) (v : Cell) (h : j ≠ j2) :
    cellAt (r.set j v) j2 = cellAt r j2 := by
  show (r.set j v).getD j2 none = r.getD j2 none
  rw [List.getD_eq_getElem?_getD, List.getElem?_set_ne h,
    ← List.getD_eq_getElem?_getD]

theorem missingCount_eq_zero_iff (rows : List Row) (j : Nat) :
    missingCount rows j = 0 ↔ NoMissing rows j := by
  unfold missingCount NoMissing
  rw [List.length_eq_zero, List.filter_eq_nil_iff]
  constructor
  · intro h r hr
    have := h r hr
    cases hc : cellAt r j with
    | none => rw [hc] at this; simp at this
    | some v => simp [hc]
  · intro h r hr
    have := h r hr
    cases hc : cellAt r j with
    | none => rw [hc] at this; simp at this
    | some v => simp [hc]

theorem fillAt_length (rows : List Row) (j : Nat) (v : Value) :
    (fillAt rows j v).length = rows.length :=
  List.length_map rows _

theorem fillAt_rowlen (rows : List Row) (j : Nat) (v : Value) (n : Nat)
    (h : ∀ r ∈ rows, r.length = n) :
    ∀ r ∈ fillAt rows j v, r.length = n := by
  intro r2 hr2
  rcases List.mem_map.1 hr2 with ⟨r, hr, rfl⟩
  by_cases hc : (cellAt r j).isNone
  · rw [if_pos hc, List.length_set]
    exact h r hr
  · rw [if_neg hc]
    exact h r hr

theorem fillAt_noMissing_self (rows : List Row) (j : Nat) (v : Value)
    (hlen : ∀ r ∈ rows, j < r.length) : NoMissing (fillAt rows j v) j := by
  intro r2 hr2
  rcases List.mem_map.1 hr2 with ⟨r, hr, rfl⟩
  by_cases hc : (cellAt r j).isNone
  · rw [if_pos hc, cellAt_set_self r j (some v) (hlen r hr)]
    rfl
  · rw [if_neg hc]
    cases hv : cellAt r j with
    | none => rw [hv] at hc; simp at hc
    | some w => simp [hv]

theorem fillAt_noMissing_mono (rows : List Row) (j j2 : Nat) (v : Value)
    (h : NoMissing rows j2) : NoMissing (fillAt rows j v) j2 := by
  intro r2 hr2
  rcases List.mem_map.1 hr2 with ⟨r, hr, rfl⟩
  have hs := h r hr
  cases hv : cellAt r j2 with
  | none => rw [hv] at hs; simp at hs
  | some w =>
    have := rowPreserves_fillRow j v r j2 w hv
    rw [this]
    rfl

theorem fillAt_noNums_other (rows : List Row) (j j2 : Nat) (v : Value)
    (hne : j ≠ j2) (h : NoNums rows j2) : NoNums (fillAt rows j v) j2 := by
  intro r2 hr2
  rcases List.mem_map.1 hr2 with ⟨r, hr, rfl⟩
  by_cases hc : (cellAt r j).isNone
  · rw [if_pos hc, cellAt_set_other r j j2 (some v) hne]
    exact h r hr
  · rw [if_neg hc]
    exact h r hr

theorem insertRat_length (q : ℚ) (l : List ℚ) :
    (insertRat q l).length = l.length + 1 := by
  induction l with
  | nil => rfl
  | cons y ys ih =>
    simp only [insertRat]
    by_cases h : q ≤ y
    · rw [if_pos h]
      simp
    · rw [if_neg h]
      simp only [List.length_cons]
      omega

theorem sortRats_length (l : List ℚ) : (sortRats l).length = l.length := by
  induction l with
  | nil => rfl
  | cons q qs ih =>
    show (insertRat q (sortRats qs)).length = qs.length + 1
    rw [insertRat_length, ih]

theorem median_eq_none_iff (qs : List ℚ) : median qs = none ↔ qs = [] := by
  constructor
  · intro h
    by_contra hne
    have hlen : 0 < (sortRats qs).length := by
      rw [sortRats_length]
      exact List.length_pos.2 hne
    unfold median at h
    simp only at h
    rw [if_neg (by omega)] at h
    by_cases hp : (sortRats qs).length % 2 = 1
    · rw [if_pos hp] at h; cases h
    · rw [if_neg hp] at h; cases h
  · rintro rfl
    rfl

theorem presentRats_eq_nil_iff (rows : List Row) (j : Nat) :
    presentRats rows j = [] ↔ NoNums rows j := by
  unfold presentRats NoNums
  rw [List.filterMap_eq_nil_iff]

theorem noNums_median (rows : List Row) (j : Nat) (h : NoNums rows j) :
    median (presentRats rows j) = none := by
  rw [(presentRats_eq_nil_iff rows j).2 h]
  rfl

theorem totalMissing_zero (ncols : Nat) (rows : List Row)
    (h : totalMissing ncols rows = 0) :
    ∀ j < ncols, missingCount rows j = 0 := by
  intro j hj
  unfold totalMissing at h
  rw [List.sum_eq_zero_iff] at h
  exact h _ (List.mem_map.2 ⟨j, List.mem_range.2 hj, rfl⟩)

/-- Membership under deduplication: the pointwise column facts transfer. -/
theorem noMissing_dropDuplicates (rows : List Row) (j : Nat)
    (h : NoMissing rows j) : NoMissing (dropDuplicates rows) j :=
  fun r hr => h r ((mem_dropDuplicates rows r).1 hr)

theorem noNums_dropDuplicates (rows : List Row) (j : Nat)
    (h : NoNums rows j) : NoNums (dropDuplicates rows) j :=
  fun r hr => h r ((mem_dropDuplicates rows r).1 hr)

theorem rowlen_dropDuplicates (rows : List Row) (n : Nat)
    (h : ∀ r ∈ rows, r.length = n) : ∀ r ∈ dropDuplicates rows, r.length = n :=
  fun r hr => h r ((mem_dropDuplicates rows r).1 hr)

/-- In a list of pairs with distinct first components, the first component
determines the entry. -/
theorem pairs_index_determines {α : Type} (L : List (Nat × α))
    (hnd : (L.map Prod.fst).Nodup) (j : Nat) (a b : α)
    (ha : (j, a) ∈ L) (hb : (j, b) ∈ L) : a = b := by
  induction L with
  | nil => cases ha
  | cons p ps ih =>
    rw [List.map_cons] at hnd
    rcases List.mem_cons.1 ha with ha1 | ha2 <;>
      rcases List.mem_cons.1 hb with hb1 | hb2
    · have : ((j, a) : Nat × α) = (j, b) := ha1.trans hb1.symm
      injection this
    · exfalso
      have hj : j ∈ ps.map Prod.fst := List.mem_map.2 ⟨(j, b), hb2, rfl⟩
      have hnotin := (List.nodup_cons.1 hnd).1
      rw [← ha1] at hnotin
      exact hnotin hj
    · exfalso
      have hj : j ∈ ps.map Prod.fst := List.mem_map.2 ⟨(j, a), ha2, rfl⟩
      have hnotin := (List.nodup_cons.1 hnd).1
      rw [← hb1] at hnotin
      exact hnotin hj
    · exact ih (List.nodup_cons.1 hnd).2 ha2 hb2

/-- An index occurs at most once in `l.enum`, so it determines the entry. -/
theorem enum_index_determines {α : Type} (l : List α) (j : Nat) (a b : α)
    (ha : (j, a) ∈ l.enum) (hb : (j, b) ∈ l.enum) : a = b := by
  refine pairs_index_determines l.enum ?_ j a b ha hb
  rw [List.enum_map_fst]
  exact List.nodup_range _

theorem enum_index_lt {α : Type} (l : List α) (p : Nat × α) (h : p ∈ l.enum) :
    p.1 < l.length := by
  have : p.1 ∈ l.enum.map Prod.fst := List.mem_map.2 ⟨p, h, rfl⟩
  rw [List.enum_map_fst, List.mem_range] at this
  exact this

/-! ## The imputation loops on an already-clean table -/

theorem imputeNumericCols_id (L : List (Nat × (String × Dtype)))
    (rows : List Row)
    (h : ∀ p ∈ L, p.2.2 = Dtype.numeric →
      NoMissing rows p.1 ∨ NoNums rows p.1) :
    imputeNumericCols L rows = rows := by
  induction L with
  | nil => rfl
  | cons q rest ih =>
    obtain ⟨j, nm, dt⟩ := q
    simp only [imputeNumericCols]
    have hstep : (if dt = Dtype.numeric ∧ 0 < missingCount rows j then
        match median (presentRats rows j) with
        | some m => fillAt rows j (.num m)
        | none => rows
      else rows) = rows := by
      by_cases hc : dt = Dtype.numeric ∧ 0 < missingCount rows j
      · rw [if_pos hc]
        rcases h (j, nm, dt) (List.mem_cons_self _ _) hc.1 with hnm | hnn
        · have h0 := (missingCount_eq_zero_iff rows j).2 hnm
          exact absurd hc.2 (by omega)
        · rw [noNums_median rows j hnn]
      · rw [if_neg hc]
    rw [hstep]
    exact ih (fun p hp hdt => h p (List.mem_cons_of_mem _ hp) hdt)

theorem imputeTextCols_ok_id (L : List (Nat × (String × Dtype)))
    (rows : List Row)
    (h : ∀ p ∈ L, p.2.2 = Dtype.text → NoMissing rows p.1) :
    imputeTextCols L rows = .ok rows := by
  induction L with
  | nil => rfl
  | cons q rest ih =>
    obtain ⟨j, nm, dt⟩ := q
    simp only [imputeTextCols]
    have hneg : ¬(dt = Dtype.text ∧ 0 < missingCount rows j) := by
      rintro ⟨hdt, hpos⟩
      have h0 := (missingCount_eq_zero_iff rows j).2
        (h (j, nm, dt) (List.mem_cons_self _ _) hdt)
      omega
    rw [if_neg hneg]
    exact ih (fun p hp hdt => h p (List.mem_cons_of_mem _ hp) hdt)

/-! ## The first clean leaves every column full or numberless -/

theorem imputeNumericCols_noMissing_mono (L : List (Nat × (String × Dtype)))
    (rows : List Row) (j : Nat) (h : NoMissing rows j) :
    NoMissing (imputeNumericCols L rows) j := by
  induction L generalizing rows with
  | nil => exact h
  | cons q rest ih =>
    obtain ⟨j2, nm, dt⟩ := q
    simp only [imputeNumericCols]
    refine ih _ ?_
    by_cases hc : dt = Dtype.numeric ∧ 0 < missingCount rows j2
    · rw [if_pos hc]
      rcases hm : median (presentRats rows j2) with _ | m
      · exact h
      · exact fillAt_noMissing_mono rows j2 j (.num m) h
    · rw [if_neg hc]
      exact h

theorem imputeNumericCols_noNums_mono (L : List (Nat × (String × Dtype)))
    (rows : List Row) (j : Nat) (hne : ∀ p ∈ L, p.1 ≠ j)
    (h : NoNums rows j) : NoNums (imputeNumericCols L rows) j := by
  induction L generalizing rows with
  | nil => exact h
  | cons q rest ih =>
    obtain ⟨j2, nm, dt⟩ := q
    simp only [imputeNumericCols]
    refine ih _ (fun p hp => hne p (List.mem_cons_of_mem _ hp)) ?_
    by_cases hc : dt = Dtype.numeric ∧ 0 < missingCount rows j2
    · rw [if_pos hc]
      rcases hm : median (presentRats rows j2) with _ | m
      · exact h
      · exact fillAt_noNums_other rows j2 j (.num m)
          (hne (j2, nm, dt) (List.mem_cons_self _ _)) h
    · rw [if_neg hc]
      exact h

theorem imputeNumericCols_rowlen (L : List (Nat × (String × Dtype)))
    (rows : List Row) (n : Nat) (hWF : ∀ r ∈ rows, r.length = n) :
    ∀ r ∈ imputeNumericCols L rows, r.length = n := by
  induction L generalizing rows with
  | nil => exact hWF
  | cons q rest ih =>
    obtain ⟨j2, nm, dt⟩ := q
    simp only [imputeNumericCols]
    refine ih _ ?_
    by_cases hc : dt = Dtype.numeric ∧ 0 < missingCount rows j2
    · rw [if_pos hc]
      rcases hm : median (presentRats rows j2) with _ | m
      · exact hWF
      · exact fillAt_rowlen rows j2 (.num m) n hWF
    · rw [if_neg hc]
      exact hWF

theorem imputeNumericCols_post (L : List (Nat × (String × Dtype)))
    (rows : List Row) (n : Nat)
    (hnd : (L.map Prod.fst).Nodup) (hlt : ∀ p ∈ L, p.1 < n)
    (hWF : ∀ r ∈ rows, r.length = n) :
    ∀ p ∈ L, p.2.2 = Dtype.numeric →
      NoMissing (imputeNumericCols L rows) p.1 ∨
        NoNums (imputeNumericCols L rows) p.1 := by
  induction L generalizing rows with
  | nil => intro p hp; cases hp
  | cons q rest ih =>
    obtain ⟨j, nm, dt⟩ := q
    rw [List.map_cons] at hnd
    have hndr := (List.nodup_cons.1 hnd).2
    have hjrest : ∀ p ∈ rest, p.1 ≠ j := by
      intro p hp hc
      exact (List.nodup_cons.1 hnd).1 (List.mem_map.2 ⟨p, hp, hc⟩)
    have hltr : ∀ p ∈ rest, p.1 < n :=
      fun p hp => hlt p (List.mem_cons_of_mem _ hp)
    intro p hp hdt
    simp only [imputeNumericCols]
    rcases List.mem_cons.1 hp with rfl | hp2
    · by_cases hc : dt = Dtype.numeric ∧ 0 < missingCount rows j
      · rw [if_pos hc]
        rcases hm : median (presentRats rows j) with _ | m
        · have hnn : NoNums rows j :=
            (presentRats_eq_nil_iff rows j).1 ((median_eq_none_iff _).1 hm)
          exact Or.inr (imputeNumericCols_noNums_mono rest rows j hjrest hnn)
        · have hfm : NoMissing (fillAt rows j (.num m)) j :=
            fillAt_noMissing_self rows j (.num m) (fun r hr => by
              rw [hWF r hr]
              exact hlt (j, nm, dt) (List.mem_cons_self _ _))
          exact Or.inl (imputeNumericCols_noMissing_mono rest _ j hfm)
      · rw [if_neg hc]
        have h0 : missingCount rows j = 0 := by
          by_cases hmz : missingCount rows j = 0
          · exact hmz
          · exact absurd ⟨hdt, by omega⟩ hc
        exact Or.inl (imputeNumericCols_noMissing_mono rest rows j
          ((missingCount_eq_zero_iff rows j).1 h0))
    · by_cases hc : dt = Dtype.numeric ∧ 0 < missingCount rows j
      · rw [if_pos hc]
        rcases hm : median (presentRats rows j) with _ | m
        · exact ih _ hndr hltr hWF p hp2 hdt
        · exact ih _ hndr hltr (fillAt_rowlen rows j (.num m) n hWF) p hp2 hdt
      · rw [if_neg hc]
        exact ih _ hndr hltr hWF p hp2 hdt

theorem imputeTextCols_noMissing_mono (L : List (Nat × (String × Dtype)))
    (rows rows2 : List Row) (j : Nat)
    (h : imputeTextCols L rows = .ok rows2) (hnm : NoMissing rows j) :
    NoMissing rows2 j := by
  induction L generalizing rows with
  | nil =>
    simp only [imputeTextCols] at h
    cases h
    exact hnm
  | cons q rest ih =>
    obtain ⟨j2, nm, dt⟩ := q
    simp only [imputeTextCols] at h
    by_cases hc : dt = Dtype.text ∧ 0 < missingCount rows j2
    · rw [if_pos hc] at h
      rcases hmo : seriesMode (presentCells rows j2) with _ | m
      · rw [hmo] at h
        cases h
      · rw [hmo] at h
        exact ih _ h (fillAt_noMissing_mono rows j2 j m hnm)
    · rw [if_neg hc] at h
      exact ih _ h hnm

theorem imputeTextCols_noNums_mono (L : List (Nat × (String × Dtype)))
    (rows rows2 : List Row) (j : Nat)
    (h : imputeTextCols L rows = .ok rows2)
    (hne : ∀ p ∈ L, p.2.2 = Dtype.text → p.1 ≠ j)
    (hnn : NoNums rows j) : NoNums rows2 j := by
  induction L generalizing rows with
  | nil =>
    simp only [imputeTextCols] at h
    cases h
    exact hnn
  | cons q rest ih =>
    obtain ⟨j2, nm, dt⟩ := q
    simp only [imputeTextCols] at h
    by_cases hc : dt = Dtype.text ∧ 0 < missingCount rows j2
    · rw [if_pos hc] at h
      rcases hmo : seriesMode (presentCells rows j2) with _ | m
      · rw [hmo] at h
        cases h
      · rw [hmo] at h
        refine ih _ h (fun p hp hdt => hne p (List.mem_cons_of_mem _ hp) hdt)
          (fillAt_noNums_other rows j2 j m
            (hne (j2, nm, dt) (List.mem_cons_self _ _) hc.1) hnn)
    · rw [if_neg hc] at h
      exact ih _ h (fun p hp hdt => hne p (List.mem_cons_of_mem _ hp) hdt) hnn

theorem imputeTextCols_rowlen (L : List (Nat × (String × Dtype)))
    (rows rows2 : List Row) (n : Nat)
    (h : imputeTextCols L rows = .ok rows2)
    (hWF : ∀ r ∈ rows, r.length = n) : ∀ r ∈ rows2, r.length = n := by
  induction L generalizing rows with
  | nil =>
    simp only [imputeTextCols] at h
    cases h
    exact hWF
  | cons q rest ih =>
    obtain ⟨j2, nm, dt⟩ := q
    simp only [imputeTextCols] at h
    by_cases hc : dt = Dtype.text ∧ 0 < missingCount rows j2
    · rw [if_pos hc] at h
      rcases hmo : seriesMode (presentCells rows j2) with _ | m
      · rw [hmo] at h
        cases h
      · rw [hmo] at h
        exact ih _ h (fillAt_rowlen rows j2 m n hWF)
    · rw [if_neg hc] at h
      exact ih _ h hWF

theorem imputeTextCols_post (L : List (Nat × (String × Dtype)))
    (rows rows2 : List Row) (n : Nat)
    (h : imputeTextCols L rows = .ok rows2)
    (hlt : ∀ p ∈ L, p.1 < n) (hWF : ∀ r ∈ rows, r.length = n) :
    ∀ p ∈ L, p.2.2 = Dtype.text → NoMissing rows2 p.1 := by
  induction L generalizing rows with
  | nil => intro p hp; cases hp
  | cons q rest ih =>
    obtain ⟨j, nm, dt⟩ := q
    have hltr : ∀ p ∈ rest, p.1 < n :=
      fun p hp => hlt p (List.mem_cons_of_mem _ hp)
    simp only [imputeTextCols] at h
    intro p hp hdt
    rcases List.mem_cons.1 hp with rfl | hp2
    · by_cases hc : dt = Dtype.text ∧ 0 < missingCount rows j
      · rw [if_pos hc] at h
        rcases hmo : seriesMode (presentCells rows j) with _ | m
        · rw [hmo] at h
          cases h
        · rw [hmo] at h
          refine imputeTextCols_noMissing_mono rest _ rows2 j h ?_
          exact fillAt_noMissing_self rows j m (fun r hr => by
            rw [hWF r hr]
            exact hlt (j, nm, dt) (List.mem_cons_self _ _))
      · rw [if_neg hc] at h
        have h0 : missingCount rows j = 0 := by
          by_cases hmz : missingCount rows j = 0
          · exact hmz
          · exact absurd ⟨hdt, by omega⟩ hc
        exact imputeTextCols_noMissing_mono rest rows rows2 j h
          ((missingCount_eq_zero_iff rows j).1 h0)
    · by_cases hc : dt = Dtype.text ∧ 0 < missingCount rows j
      · rw [if_pos hc] at h
        rcases hmo : seriesMode (presentCells rows j) with _ | m
        · rw [hmo] at h
          cases h
        · rw [hmo] at h
          exact ih _ h hltr (fillAt_rowlen rows j m n hWF) p hp2 hdt
      · rw [if_neg hc] at h
        exact ih _ h hltr hWF p hp2 hdt

/-- Second pass of the cleaner over rows in which every column is either
full or (numeric) entirely without numbers: deduplication happens, and
both imputation loops are no-ops. -/
theorem clean_data_second_pass (t : Table) (rows1 : List Row)
    (hQnum : ∀ p ∈ t.header.enum, p.2.2 = Dtype.numeric →
      NoMissing rows1 p.1 ∨ NoNums rows1 p.1)
    (hQtext : ∀ p ∈ t.header.enum, p.2.2 = Dtype.text → NoMissing rows1 p.1) :
    clean_data { t with rows := rows1 } =
      .ok ({ t with rows := dropDuplicates rows1 },
        rows1.length - (dropDuplicates rows1).length) := by
  have hQnumD : ∀ p ∈ t.header.enum, p.2.2 = Dtype.numeric →
      NoMissing (dropDuplicates rows1) p.1 ∨ NoNums (dropDuplicates rows1) p.1 := by
    intro p hp hdt
    rcases hQnum p hp hdt with hA | hB
    · exact Or.inl (noMissing_dropDuplicates rows1 p.1 hA)
    · exact Or.inr (noNums_dropDuplicates rows1 p.1 hB)
  have hQtextD : ∀ p ∈ t.header.enum, p.2.2 = Dtype.text →
      NoMissing (dropDuplicates rows1) p.1 :=
    fun p hp hdt => noMissing_dropDuplicates rows1 p.1 (hQtext p hp hdt)
  unfold clean_data
  dsimp only
  by_cases hm2 : 0 < totalMissing t.header.length (dropDuplicates rows1)
  · rw [if_pos hm2, imputeNumericCols_id t.header.enum (dropDuplicates rows1) hQnumD,
      imputeTextCols_ok_id t.header.enum (dropDuplicates rows1) hQtextD]
  · rw [if_neg hm2]

/-- C8, amended.  Cleaning twice is not the identity on the once-cleaned
table: imputation can make two previously-distinct rows equal, and the
second pass removes such duplicates.  What survives of the claim is that
the second pass performs no imputation — no cell value changes — so
cleaning the cleaned table is exactly deduplication: it returns the
cleaned table with duplicate rows dropped and reports their number. -/
theorem C8_second_clean_is_dedup_only (t t1 : Table) (k : Nat)
    (hWF : ∀ r ∈ t.rows, r.length = t.header.length)
    (h : clean_data t = .ok (t1, k)) :
    clean_data t1 =
      .ok ({ t1 with rows := dropDuplicates t1.rows },
        t1.rows.length - (dropDuplicates t1.rows).length) := by
  have hnd : (t.header.enum.map Prod.fst).Nodup := by
    rw [List.enum_map_fst]
    exact List.nodup_range _
  have hlt : ∀ p ∈ t.header.enum, p.1 < t.header.length :=
    fun p hp => enum_index_lt t.header p hp
  have hWFd : ∀ r ∈ dropDuplicates t.rows, r.length = t.header.length :=
    rowlen_dropDuplicates t.rows _ hWF
  unfold clean_data at h
  by_cases hm : 0 < totalMissing t.header.length (dropDuplicates t.rows)
  · rw [if_pos hm] at h
    rcases he : imputeTextCols t.header.enum
        (imputeNumericCols t.header.enum (dropDuplicates t.rows)) with e | rows1
    · rw [he] at h
      cases h
    · rw [he] at h
      injection h with hpair
      injection hpair with htbl hk
      subst htbl
      have hWFa : ∀ r ∈ imputeNumericCols t.header.enum (dropDuplicates t.rows),
          r.length = t.header.length :=
        imputeNumericCols_rowlen t.header.enum (dropDuplicates t.rows) _ hWFd
      have hQnum : ∀ p ∈ t.header.enum, p.2.2 = Dtype.numeric →
          NoMissing rows1 p.1 ∨ NoNums rows1 p.1 := by
        intro p hp hdt
        rcases imputeNumericCols_post t.header.enum (dropDuplicates t.rows) _
            hnd hlt hWFd p hp hdt with hA | hB
        · exact Or.inl
            (imputeTextCols_noMissing_mono t.header.enum _ rows1 p.1 he hA)
        · refine Or.inr
            (imputeTextCols_noNums_mono t.header.enum _ rows1 p.1 he ?_ hB)
          intro p2 hp2 hdt2 hc
          have hp2m : ((p.1, p2.2) : Nat × (String × Dtype)) ∈ t.header.enum := by
            rw [← hc]
            exact hp2
          have hpm : ((p.1, p.2) : Nat × (String × Dtype)) ∈ t.header.enum := hp
          have hsnd : p2.2 = p.2 :=
            enum_index_determines t.header p.1 p2.2 p.2 hp2m hpm
          rw [hsnd, hdt] at hdt2
          cases hdt2
      have hQtext : ∀ p ∈ t.header.enum, p.2.2 = Dtype.text →
          NoMissing rows1 p.1 :=
        imputeTextCols_post t.header.enum _ rows1 _ he hlt hWFa
      exact clean_data_second_pass t rows1 hQnum hQtext
  · rw [if_neg hm] at h
    injection h with hpair
    injection hpair with htbl hk
    subst htbl
    have hz : totalMissing t.header.length (dropDuplicates t.rows) = 0 := by
      omega
    have hall : ∀ p ∈ t.header.enum, NoMissing (dropDuplicates t.rows) p.1 := by
      intro p hp
      exact (missingCount_eq_zero_iff _ _).1
        (totalMissing_zero _ _ hz p.1 (hlt p hp))
    exact clean_data_second_pass t (dropDuplicates t.rows)
      (fun p hp _ => Or.inl (hall p hp)) (fun p hp _ => hall p hp)

/-- A one-column table with a present value and a missing value: the rows
are distinct before cleaning, and median imputation makes them equal. -/
def tblC8 : Table :=
  { header := [("x", .numeric)], rows := [[some (.num 1)], [none]] }

/-- Result of cleaning `tblC8` once: no duplicates dropped, the missing
cell imputed with the median 1 — leaving two identical rows. -/
def tblC8c : Table :=
  { header := [("x", .numeric)], rows := [[some (.num 1)], [some (.num 1)]] }

/-- Result of cleaning `tblC8c` again: one of the now-identical rows is
removed. -/
def tblC8cc : Table :=
  { header := [("x", .numeric)], rows := [[some (.num 1)]] }

/-- C8, counterexample.  Cleaning `tblC8` once removes no rows and imputes
the missing cell, producing two identical rows; cleaning the result
removes one further row (removed count 1), so the second pass does not
yield an identical table. -/
theorem C8_idempotence_counterexample :
    clean_data tblC8 = .ok (tblC8c, 0)
    ∧ clean_data tblC8c = .ok (tblC8cc, 1)
    ∧ tblC8c ≠ tblC8cc := by
  refine ⟨by rfl, by rfl, by decide⟩

/-- Witness for the amended C8 at `tblC8`: the second clean of its cleaned
form is exactly deduplication. -/
theorem C8_second_clean_is_dedup_only_witness :
    clean_data tblC8c =
      .ok ({ tblC8c with rows := dropDuplicates tblC8c.rows },
        tblC8c.rows.length - (dropDuplicates tblC8c.rows).length) :=
  C8_second_clean_is_dedup_only tblC8 tblC8c 0 (by decide) (by rfl)

end SalesAnalysis
